import Mathlib

/-!
# Verification of the IPBlocklist aggregator (src/aggregator.py)

This file embeds the fetch-and-normalize pipeline of `aggregator.py` as
executable Lean definitions and proves the specified properties about them.

Strings are modelled as `List Char` (one `Token` per candidate string).
Python integers are `Nat`/`Int`.  The CPython `ipaddress` module functions
used by the source (`ip_address`, `ip_network(·, strict=False)`) are embedded
following the parsing algorithms of CPython's `Lib/ipaddress.py`.
The regex engine (`re.findall`) is external to the program and is modelled by
its observable output: a list of per-match results, each either a whole-match
string (patterns with at most one group) or a tuple of captured groups
(patterns with two or more groups); unmatched groups appear as empty strings.
Network I/O is modelled by an oracle giving each attempt's outcome.
-/

/-- A candidate string (Python `str`), modelled as its list of characters. -/
abbrev Token := List Char

/-- Python `str.count(c)` for a single-character needle. -/
def countChar (c : Char) (s : Token) : Nat := (s.filter (fun x => x = c)).length

/-- Python `str.split(c)` for a single-character separator: the list of
(possibly empty) chunks between occurrences of `c`. -/
def splitOnChar (c : Char) : Token → List Token
  | [] => [[]]
  | x :: xs =>
    match splitOnChar c xs with
    | p :: ps => if x = c then [] :: p :: ps else (x :: p) :: ps
    | [] => [[]]

/-- Python `str.partition(c)` for a single-character separator: the part
before the first occurrence of `c`, and (when `c` occurs) the part after. -/
def partitionChar (c : Char) : Token → Token × Option Token
  | [] => ([], none)
  | x :: xs =>
    if x = c then ([], some xs)
    else
      let r := partitionChar c xs
      (x :: r.1, r.2)

/-- Python `str.strip()`: remove leading and trailing whitespace.  (CPython
strips all Unicode whitespace; the feeds are ASCII text, and `Char.isWhitespace`
covers the ASCII whitespace characters.) -/
def pyStrip (s : Token) : Token :=
  ((s.dropWhile Char.isWhitespace).reverse.dropWhile Char.isWhitespace).reverse

/-- Digit-string scanner of Python `int(·, 10)`: ASCII decimal digits with
single underscores permitted between digits (CPython's grammar
`digit (['_'] digit)*`).  `sawDigit` records whether the previous character
was a digit (so an underscore is currently permitted and the string may end). -/
def pyDigitsAux : Token → Nat → Bool → Option Nat
  | [], acc, sawDigit => if sawDigit then some acc else none
  | c :: rest, acc, sawDigit =>
    if c.isDigit then pyDigitsAux rest (acc * 10 + (c.toNat - 48)) true
    else if c = '_' ∧ sawDigit = true then pyDigitsAux rest acc false
    else none

/-- Value of an unsigned digit string accepted by Python `int(·, 10)`. -/
def pyDigits (s : Token) : Option Nat := pyDigitsAux s 0 false

/-- Python `int(s)` on a string: strip whitespace, optional sign, decimal
digits (with underscores).  (CPython additionally accepts non-ASCII Unicode
decimal digits, which cannot occur in these ASCII feed tokens.) -/
def pyInt (s : Token) : Option Int :=
  if (pyStrip s).head? = some '+' then (pyDigits (pyStrip s).tail).map Int.ofNat
  else if (pyStrip s).head? = some '-' then
    (pyDigits (pyStrip s).tail).map (fun n => -(n : Int))
  else (pyDigits (pyStrip s)).map Int.ofNat

/-- Numeric value of a list of decimal digits, most significant first. -/
def digitsToNat (s : Token) : Nat := s.foldl (fun a c => a * 10 + (c.toNat - 48)) 0

/-- CPython `IPv4Address._parse_octet`: nonempty, ASCII digits only, at most
three characters, no leading zero (except "0" itself), value at most 255. -/
def parseOctet (s : Token) : Option Nat :=
  if s = [] then none
  else if ¬ s.all Char.isDigit then none
  else if s.length > 3 then none
  else if s ≠ ['0'] ∧ s.head? = some '0' then none
  else if digitsToNat s > 255 then none
  else some (digitsToNat s)

/-- CPython `IPv4Address._ip_int_from_string`: exactly four octets joined by
dots, big-endian value. -/
def ipv4IntFromString (s : Token) : Option Nat :=
  match (splitOnChar '.' s).map parseOctet with
  | [some a, some b, some c, some d] => some (((a * 256 + b) * 256 + c) * 256 + d)
  | _ => none

/-- Hexadecimal digit test (CPython `_HEX_DIGITS`). -/
def isHexDigitChar (c : Char) : Bool :=
  c.isDigit || ('a' ≤ c && c ≤ 'f') || ('A' ≤ c && c ≤ 'F')

/-- Numeric value of one hexadecimal digit character. -/
def hexDigitVal (c : Char) : Nat :=
  if c.isDigit then c.toNat - 48
  else if 'a' ≤ c then c.toNat - 87
  else c.toNat - 55

/-- CPython `IPv6Address._parse_hextet`: hex digits only, nonempty, at most
four characters. -/
def parseHextet (s : Token) : Option Nat :=
  if s ≠ [] ∧ s.all isHexDigitChar ∧ s.length ≤ 4 then
    some (s.foldl (fun a c => a * 16 + hexDigitVal c) 0)
  else none

/-- Fold a run of hextets into an accumulated integer, 16 bits at a time,
starting from `init` (the `ip_int <<= 16; ip_int |= hextet` loop). -/
def hextetsFoldFrom (init : Nat) (ps : List Token) : Option Nat :=
  ps.foldl
    (fun acc p =>
      match acc, parseHextet p with
      | some a, some h => some (a * 65536 + h)
      | _, _ => none)
    (some init)

/-- Hexadecimal digit character (lowercase), for values below 16. -/
def hexDigitChar (n : Nat) : Char :=
  if n < 10 then Char.ofNat (48 + n) else Char.ofNat (87 + n)

/-- Python `'%x' % n` for `n < 2^16` (no padding, lowercase). -/
def toHexChars16 (n : Nat) : Token :=
  if n = 0 then ['0']
  else
    (if n ≥ 4096 then [hexDigitChar (n / 4096 % 16)] else [])
      ++ (if n ≥ 256 then [hexDigitChar (n / 256 % 16)] else [])
      ++ (if n ≥ 16 then [hexDigitChar (n / 16 % 16)] else [])
      ++ [hexDigitChar (n % 16)]

/-- CPython `IPv6Address._ip_int_from_string`: split on `:`, optional
trailing embedded IPv4 (replaced by two synthesized hextets), at most one
`::` compression (located as the unique empty internal part), leading or
trailing `:` only as part of `::`, eight hextets in total. -/
def ipv6IntFromString (s : Token) : Option Nat :=
  if s = [] then none
  else
    let parts0 := splitOnChar ':' s
    if parts0.length < 3 then none
    else
      let partsOpt : Option (List Token) :=
        if '.' ∈ parts0.getLastD [] then
          match ipv4IntFromString (parts0.getLastD []) with
          | none => none
          | some v =>
            some (parts0.dropLast ++ [toHexChars16 (v / 65536), toHexChars16 (v % 65536)])
        else some parts0
      match partsOpt with
      | none => none
      | some parts =>
        let n := parts.length
        if n > 9 then none
        else
          match (List.range n).filter (fun i => decide (1 ≤ i ∧ i + 1 < n ∧ parts[i]? = some [])) with
          | [] =>
            if n = 8 ∧ parts[0]? ≠ some [] ∧ parts[n - 1]? ≠ some [] then
              hextetsFoldFrom 0 parts
            else none
          | [i] =>
            let hiOpt : Option Nat :=
              if parts[0]? = some [] then (if i = 1 then some 0 else none) else some i
            let loOpt : Option Nat :=
              if parts[n - 1]? = some [] then (if i + 2 = n then some 0 else none)
              else some (n - i - 1)
            match hiOpt, loOpt with
            | some hi, some lo =>
              if hi + lo ≥ 8 then none
              else
                match hextetsFoldFrom 0 (parts.take hi) with
                | none => none
                | some hiVal =>
                  hextetsFoldFrom (hiVal * 2 ^ (16 * (8 - (hi + lo)))) (parts.drop (n - lo))
            | _, _ => none
          | _ => none

/-- CPython `_split_optional_netmask`: split on `/`, at most two chunks;
`none` as second component when no `/` occurs (prefix defaults to the
maximum), error (outer `none`) when more than one `/` occurs. -/
def splitNetmask (s : Token) : Option (Token × Option Token) :=
  match splitOnChar '/' s with
  | [a] => some (a, none)
  | [a, m] => some (a, some m)
  | _ => none

/-- CPython `_prefix_from_prefix_string`: ASCII digits only, nonempty, value
at most `maxLen`. -/
def prefixFromPrefixString (maxLen : Nat) (m : Token) : Option Nat :=
  if m ≠ [] ∧ m.all Char.isDigit then
    if digitsToNat m ≤ maxLen then some (digitsToNat m) else none
  else none

/-- CPython `IPv4Network._prefix_from_ip_int`: recognize a 32-bit netmask of
the form `1^p 0^(32-p)` (equivalently the integer `2^32 - 2^(32-p)`) and
return `p`. -/
def prefixFromIpInt (ipInt : Nat) : Option Nat :=
  (List.range 33).find? (fun p => ipInt = 2 ^ 32 - 2 ^ (32 - p))

/-- CPython `IPv4Network._prefix_from_ip_string`: parse the chunk after `/`
as a dotted-quad netmask, or failing that as a hostmask. -/
def prefixFromIpString (m : Token) : Option Nat :=
  match ipv4IntFromString m with
  | none => none
  | some ipInt =>
    match prefixFromIpInt ipInt with
    | some p => some p
    | none => prefixFromIpInt (ipInt ^^^ (2 ^ 32 - 1))

/-- A parsed IP network before masking: address family width in bits, the
address as parsed (host bits possibly set), and the prefix length. -/
structure IPNet where
  width : Nat
  addr : Nat
  prefixlen : Nat
deriving DecidableEq

/-- Integer value of the netmask (`prefixlen` high one-bits). -/
def netmaskInt (nw : IPNet) : Nat := 2 ^ nw.width - 2 ^ (nw.width - nw.prefixlen)

/-- Integer value of the hostmask (`width - prefixlen` low one-bits). -/
def hostmaskInt (nw : IPNet) : Nat := 2 ^ (nw.width - nw.prefixlen) - 1

/-- `int(network.network_address)`: with `strict=False` CPython masks the
host bits (`address & netmask`). -/
def networkAddress (nw : IPNet) : Nat := nw.addr &&& netmaskInt nw

/-- `int(network.broadcast_address)`: `network_address | hostmask`. -/
def broadcastAddress (nw : IPNet) : Nat := networkAddress nw ||| hostmaskInt nw

/-- CPython `IPv4Address(s)`: no `/` permitted, dotted-quad value. -/
def ipv4Address (s : Token) : Option Nat :=
  if '/' ∈ s then none else ipv4IntFromString s

/-- CPython `IPv6Address(s)`: no `/` permitted, an optional nonempty
`%scope` suffix (not containing a further `%`) is split off. -/
def ipv6Address (s : Token) : Option Nat :=
  if '/' ∈ s then none
  else
    match partitionChar '%' s with
    | (_, none) => ipv6IntFromString s
    | (a, some sc) =>
      if sc = [] ∨ '%' ∈ sc then none else ipv6IntFromString a

/-- CPython `IPv4Network(s, strict=False)` construction (success/failure and
the resulting address and prefix).  The address chunk is parsed as an
`IPv4Address`; a missing mask defaults to /32; a mask chunk may be a decimal
prefix length, a netmask, or a hostmask. -/
def ipv4Network (s : Token) : Option IPNet :=
  match splitNetmask s with
  | none => none
  | some (addrStr, maskOpt) =>
    match ipv4Address addrStr with
    | none => none
    | some addr =>
      let pOpt :=
        match maskOpt with
        | none => some 32
        | some m =>
          match prefixFromPrefixString 32 m with
          | some p => some p
          | none => prefixFromIpString m
      match pOpt with
      | none => none
      | some p => some ⟨32, addr, p⟩

/-- CPython `IPv6Network(s, strict=False)` construction.  The address chunk
is parsed as an `IPv6Address` — including the optional `%scope` zone suffix,
which is split off and ignored for the numeric value.  A missing mask
defaults to /128; the mask chunk must be a decimal prefix length. -/
def ipv6Network (s : Token) : Option IPNet :=
  match splitNetmask s with
  | none => none
  | some (addrStr, maskOpt) =>
    match ipv6Address addrStr with
    | none => none
    | some addr =>
      let pOpt :=
        match maskOpt with
        | none => some 128
        | some m => prefixFromPrefixString 128 m
      match pOpt with
      | none => none
      | some p => some ⟨128, addr, p⟩

/-- CPython `ipaddress.ip_network(s, strict=False)`: try IPv4, then IPv6. -/
def ip_network (s : Token) : Option IPNet :=
  match ipv4Network s with
  | some nw => some nw
  | none => ipv6Network s

/-- CPython `ipaddress.ip_address(s)`: try IPv4, then IPv6. -/
def ip_address (s : Token) : Option Nat :=
  match ipv4Address s with
  | some v => some v
  | none => ipv6Address s

/-- Result of `parse_ip` (aggregator.py lines 10-16): an address object or a
network object, `none` on `ValueError`. -/
inductive Parsed where
  | address (value : Nat)
  | network (nw : IPNet)
deriving DecidableEq

/-- `parse_ip` (aggregator.py lines 10-16): strings containing `/` are parsed
as networks with `strict=False`, all others as addresses. -/
def parse_ip (s : Token) : Option Parsed :=
  if '/' ∈ s then (ip_network s).map Parsed.network
  else (ip_address s).map Parsed.address

/-- One element of the list returned by `re.findall(regex, line)`: a plain
string when the pattern has at most one capture group, a tuple of captured
group strings when it has two or more (an unmatched group yields the empty
string). -/
inductive RMatch where
  | whole (s : Token)
  | groups (gs : List Token)
deriving DecidableEq

/-- The value appended for one `re.findall` match by `parse_line`
(aggregator.py lines 22-26): a plain match is kept as is; for a tuple,
`next((group for group in match if group), None)` selects the first
non-empty (truthy) group, `None` (here `none`) when all groups are empty. -/
def tokenOfMatch (m : RMatch) : Option Token :=
  match m with
  | .whole s => some s
  | .groups gs => gs.find? (fun g => g != [])

/-- `parse_line` (aggregator.py lines 19-27), given the `re.findall` output
for the line: one appended result per match. -/
def parse_line (ms : List RMatch) : List (Option Token) :=
  ms.foldl (fun results m => results ++ [tokenOfMatch m]) []

/-- Classification of one candidate token by the `process_feeds` loop body
(aggregator.py lines 72-92): an address value, a `[start, end]` range, or
nothing (skipped token). -/
inductive Entity where
  | addr (value : Nat)
  | range (start stop : Int)
  | invalid
deriving DecidableEq

/-- The numeric-range branch of the `process_feeds` token loop
(aggregator.py lines 75-83): a token with exactly one `-` whose two halves
both parse as Python ints yields that range verbatim; `none` means the loop
falls through to `parse_ip`. -/
def numericRange (s : Token) : Option Entity :=
  if '-' ∈ s ∧ countChar '-' s = 1 then
    match splitOnChar '-' s with
    | [a, b] =>
      match pyInt a, pyInt b with
      | some x, some y => some (.range x y)
      | _, _ => none
    | _ => none
  else none

/-- The body of the `process_feeds` token loop (aggregator.py lines 72-92):
skip falsy tokens (`None` or empty); try the numeric-range branch;
otherwise `parse_ip` decides between address, network range, and skip. -/
def classifyToken (t : Option Token) : Entity :=
  match t with
  | none => .invalid
  | some s =>
    if s = [] then .invalid
    else
      match numericRange s with
      | some e => e
      | none =>
        match parse_ip s with
        | none => .invalid
        | some (.network nw) =>
          .range (networkAddress nw) (broadcastAddress nw)
        | some (.address v) => .addr v

/-- The address contributed by a token, if any. -/
def tokenAddress (t : Option Token) : Option Nat :=
  match classifyToken t with
  | .addr v => some v
  | _ => none

/-- The `(start, end)` range contributed by a token, if any. -/
def tokenRange (t : Option Token) : Option (Int × Int) :=
  match classifyToken t with
  | .range x y => some (x, y)
  | _ => none

/-- Insert into a strictly sorted list, keeping it strictly sorted and
duplicate-free. -/
def insertSorted [LinearOrder α] (x : α) : List α → List α
  | [] => [x]
  | y :: ys =>
    if x < y then x :: y :: ys
    else if x = y then y :: ys
    else y :: insertSorted x ys

/-- Python `sorted(set(l))`: the strictly ascending enumeration of the
distinct elements of `l`. -/
def sortedDedup [LinearOrder α] (l : List α) : List α := l.foldr insertSorted []

/-- One `process_feeds` output entry (aggregator.py line 97):
`{"addresses": ..., "networks": ...}` with the networks as tuples ordered
lexicographically.  (The final conversion of each tuple back to a two-element
JSON list keeps order and content unchanged.) -/
structure ProcessedFeed where
  addresses : List Nat
  networks : List (Lex (Int × Int))
deriving DecidableEq

/-- One iteration of the `process_feeds` token loop: append the token's
contribution to the `addresses` or `networks` accumulator. -/
def collectStep (acc : List Nat × List (Int × Int)) (t : Option Token) :
    List Nat × List (Int × Int) :=
  match classifyToken t with
  | .addr v => (acc.1 ++ [v], acc.2)
  | .range x y => (acc.1, acc.2 ++ [(x, y)])
  | .invalid => acc

/-- The accumulation loop of `process_feeds` (aggregator.py lines 69-92): the
`addresses` and `networks` lists in input order, before dedup and sort. -/
def collectEntities (ts : List (Option Token)) : List Nat × List (Int × Int) :=
  ts.foldl collectStep ([], [])

/-- Per-source normalization of `process_feeds` (aggregator.py lines 69-97):
accumulate, then `sorted(set(addresses))` and `sorted(set(tuples))`. -/
def normalizeTokens (ts : List (Option Token)) : ProcessedFeed :=
  { addresses := sortedDedup (collectEntities ts).1
    networks := sortedDedup ((collectEntities ts).2.map toLex) }

/-- `process_feeds` (aggregator.py lines 66-98) over the feeds dictionary,
modelled as an association list in insertion order. -/
def process_feeds (feeds : List (Token × List (Option Token))) : List (Token × ProcessedFeed) :=
  feeds.map (fun kv => (kv.1, normalizeTokens kv.2))

/-- Python `dict` assignment `d[k] = v` on an association list: overwrite in
place when the key exists, append otherwise. -/
def dictInsert (k : Token) (v : β) : List (Token × β) → List (Token × β)
  | [] => [(k, v)]
  | (k', v') :: rest => if k' = k then (k, v) :: rest else (k', v') :: dictInsert k v rest

/-- Python `dict` lookup `d[k]` on an association list. -/
def dictLookup (k : Token) : List (Token × β) → Option β
  | [] => none
  | (k', v) :: rest => if k' = k then some v else dictLookup k rest

/-- Observable events of one `download_source` call (aggregator.py lines
30-41): each attempt with its outcome, and each fixed one-second backoff
sleep. -/
inductive FetchEvent where
  | attempt (i : Nat) (ok : Bool)
  | sleep (seconds : Nat)
deriving DecidableEq

/-- The `for attempt in range(1, 4)` retry loop of `download_source`
(aggregator.py lines 30-41), over the remaining attempt numbers.  The oracle
`att` gives each attempt's outcome: `some lines` for a successful fetch,
`none` for any raised exception (the `except` branch).  Returns the event
trace and the resulting line list (`[]` after the loop exhausts). -/
def download_source_loop (att : Nat → Option (List Token)) : List Nat → List FetchEvent × List Token
  | [] => ([], [])
  | i :: rest =>
    match att i with
    | some lines => ([.attempt i true], lines)
    | none =>
      let tail := download_source_loop att rest
      (.attempt i false :: ((if i < 3 then [FetchEvent.sleep 1] else []) ++ tail.1), tail.2)

/-- `download_source` (aggregator.py lines 30-41): attempts 1, 2, 3. -/
def download_source (att : Nat → Option (List Token)) : List FetchEvent × List Token :=
  download_source_loop att (List.range' 1 3)

/-- Number of fetch attempts recorded in a trace. -/
def countAttempts (trace : List FetchEvent) : Nat :=
  (trace.filter (fun e => match e with | .attempt _ _ => true | .sleep _ => false)).length

/-- One source descriptor together with its run's observable fetch-and-match
result: for each downloaded line, the `re.findall` output for that line under the
source's regex.  A fetch that fails entirely downloads no lines (`[]`). -/
structure SourceRun where
  name : Token
  lineMatches : List (List RMatch)
deriving DecidableEq

/-- The token accumulation of `download_single_list` (aggregator.py lines
44-50): `ips.extend(parse_line(line, regex))` over the downloaded lines. -/
def sourceTokens (s : SourceRun) : List (Option Token) :=
  (s.lineMatches.map parse_line).flatten

/-- `download_single_list` (aggregator.py lines 44-50): the `(name, ips)`
pair for one source. -/
def download_single_list (s : SourceRun) : Token × List (Option Token) :=
  (s.name, sourceTokens s)

/-- `download_all_feeds` (aggregator.py lines 53-63): the futures complete in
a nondeterministic order, and each completion stores its result under the
source's name; `completed` is the completion order (a permutation of the
input sources). -/
def download_all_feeds (completed : List SourceRun) : List (Token × List (Option Token)) :=
  completed.foldl
    (fun d s => dictInsert (download_single_list s).1 (download_single_list s).2 d)
    []

/-- The snapshot written by `main` (aggregator.py lines 111-112). -/
structure Snapshot where
  timestamp : Nat
  feeds : List (Token × ProcessedFeed)

/-- Assembly of the final snapshot (aggregator.py lines 106-112). -/
def buildSnapshot (timestamp : Nat) (feeds : List (Token × List (Option Token))) : Snapshot :=
  ⟨timestamp, process_feeds feeds⟩

/-- The strict lexicographic order on `(start, end)` pairs, as used to state
the ordering of the `networks` collection. -/
def netLt (a b : Int × Int) : Prop := a.1 < b.1 ∨ (a.1 = b.1 ∧ a.2 < b.2)

/-- Number of occurrences of `a` in `l` (used to state uniqueness). -/
def countOcc [DecidableEq α] (a : α) (l : List α) : Nat :=
  (l.filter (fun x => x = a)).length

/-! ## Basic lemmas about `insertSorted` and `sortedDedup` -/

theorem mem_insertSorted [LinearOrder α] (x a : α) :
    ∀ l : List α, a ∈ insertSorted x l ↔ a = x ∨ a ∈ l := by
  intro l
  induction l with
  | nil => simp [insertSorted]
  | cons y ys ih =>
    simp only [insertSorted]
    rcases lt_trichotomy x y with h | h | h
    · rw [if_pos h]
      simp only [List.mem_cons]
    · rw [if_neg (h ▸ lt_irrefl x), if_pos h]
      subst h
      simp only [List.mem_cons]
      tauto
    · rw [if_neg (not_lt.mpr h.le), if_neg (ne_of_gt h)]
      simp only [List.mem_cons, ih]
      tauto

theorem sorted_insertSorted [LinearOrder α] (x : α) :
    ∀ l : List α, l.Sorted (· < ·) → (insertSorted x l).Sorted (· < ·) := by
  intro l
  induction l with
  | nil => simp [insertSorted]
  | cons y ys ih =>
    intro h
    rw [List.sorted_cons] at h
    by_cases h1 : x < y
    · simp only [insertSorted, if_pos h1]
      rw [List.sorted_cons]
      refine ⟨?_, List.sorted_cons.mpr h⟩
      intro b hb
      rcases List.mem_cons.mp hb with hb | hb
      · exact hb ▸ h1
      · exact h1.trans (h.1 b hb)
    · by_cases h2 : x = y
      · simp only [insertSorted, if_neg h1, if_pos h2]
        exact List.sorted_cons.mpr h
      · simp only [insertSorted, if_neg h1, if_neg h2]
        rw [List.sorted_cons]
        refine ⟨?_, ih h.2⟩
        intro b hb
        rcases (mem_insertSorted x b ys).mp hb with hb | hb
        · subst hb
          exact lt_of_le_of_ne (not_lt.mp h1) (Ne.symm h2)
        · exact h.1 b hb

theorem sorted_sortedDedup [LinearOrder α] (l : List α) :
    (sortedDedup l).Sorted (· < ·) := by
  induction l with
  | nil => simp [sortedDedup]
  | cons x xs ih => exact sorted_insertSorted x _ ih

theorem mem_sortedDedup [LinearOrder α] (a : α) :
    ∀ l : List α, a ∈ sortedDedup l ↔ a ∈ l := by
  intro l
  induction l with
  | nil => simp [sortedDedup]
  | cons x xs ih =>
    show a ∈ insertSorted x (sortedDedup xs) ↔ _
    rw [mem_insertSorted, ih]
    simp

theorem nodup_sortedDedup [LinearOrder α] (l : List α) : (sortedDedup l).Nodup :=
  (sorted_sortedDedup l).nodup

theorem sortedDedup_eq_of_mem_iff [LinearOrder α] {l₁ l₂ : List α}
    (h : ∀ a, a ∈ l₁ ↔ a ∈ l₂) : sortedDedup l₁ = sortedDedup l₂ := by
  refine List.eq_of_perm_of_sorted ?_ (sorted_sortedDedup l₁) (sorted_sortedDedup l₂)
  refine (List.perm_ext_iff_of_nodup (nodup_sortedDedup l₁) (nodup_sortedDedup l₂)).mpr ?_
  intro a
  rw [mem_sortedDedup, mem_sortedDedup]
  exact h a

theorem sortedDedup_perm [LinearOrder α] {l₁ l₂ : List α} (h : l₁.Perm l₂) :
    sortedDedup l₁ = sortedDedup l₂ :=
  sortedDedup_eq_of_mem_iff (fun _ => h.mem_iff)

theorem countOcc_cons [DecidableEq α] (a x : α) (xs : List α) :
    countOcc a (x :: xs) = (if x = a then 1 else 0) + countOcc a xs := by
  unfold countOcc
  rw [List.filter_cons]
  by_cases he : x = a
  · simp [he, Nat.add_comm]
  · simp [he]

theorem countOcc_eq_zero [DecidableEq α] (a : α) :
    ∀ l : List α, a ∉ l → countOcc a l = 0 := by
  intro l
  induction l with
  | nil => intro _; rfl
  | cons x xs ih =>
    intro h
    simp only [List.mem_cons, not_or] at h
    rw [countOcc_cons, if_neg (fun he => h.1 he.symm), ih h.2]

theorem nodup_mem_countOcc_eq_one [DecidableEq α] (a : α) :
    ∀ l : List α, l.Nodup → a ∈ l → countOcc a l = 1 := by
  intro l
  induction l with
  | nil => intro _ h; simp at h
  | cons x xs ih =>
    intro hnd hm
    obtain ⟨hx, hnd2⟩ := List.nodup_cons.mp hnd
    rw [countOcc_cons]
    rcases List.mem_cons.mp hm with rfl | hmem
    · rw [if_pos rfl, countOcc_eq_zero a xs hx]
    · have hne : x ≠ a := fun he => hx (he ▸ hmem)
      rw [if_neg hne, ih hnd2 hmem]

theorem countOcc_sortedDedup [LinearOrder α] (a : α) (l : List α) (h : a ∈ l) :
    countOcc a (sortedDedup l) = 1 :=
  nodup_mem_countOcc_eq_one a _ (nodup_sortedDedup l) ((mem_sortedDedup a l).mpr h)

/-! ## Lemmas about the string utilities -/


theorem splitOnChar_ne_nil (c : Char) : ∀ s : Token, splitOnChar c s ≠ [] := by
  intro s
  cases s with
  | nil => simp [splitOnChar]
  | cons x xs =>
    simp only [splitOnChar]
    rcases h : splitOnChar c xs with _ | ⟨p, ps⟩
    · simp
    · by_cases hx : x = c <;> simp [hx]

theorem eq_of_splitOnChar_single (c : Char) :
    ∀ s p : Token, splitOnChar c s = [p] → s = p := by
  intro s
  induction s with
  | nil =>
    intro p h
    simp only [splitOnChar, List.cons.injEq] at h
    exact h.1
  | cons x xs ih =>
    intro p h
    simp only [splitOnChar] at h
    rcases hxs : splitOnChar c xs with _ | ⟨q, qs⟩
    · exact absurd hxs (splitOnChar_ne_nil c xs)
    · rw [hxs] at h
      by_cases hx : x = c
      · simp [hx] at h
      · simp only [if_neg hx] at h
        rcases List.cons_eq_cons.mp h with ⟨h1, h2⟩
        subst h2
        have hxq : xs = q := ih q (by rw [hxs])
        rw [← h1, hxq]

theorem eq_of_splitOnChar_pair (c : Char) :
    ∀ s a b : Token, splitOnChar c s = [a, b] → s = a ++ c :: b := by
  intro s
  induction s with
  | nil => intro a b h; simp [splitOnChar] at h
  | cons x xs ih =>
    intro a b h
    simp only [splitOnChar] at h
    rcases hxs : splitOnChar c xs with _ | ⟨q, qs⟩
    · exact absurd hxs (splitOnChar_ne_nil c xs)
    · rw [hxs] at h
      by_cases hx : x = c
      · simp only [if_pos hx] at h
        rcases List.cons_eq_cons.mp h with ⟨h1, h2⟩
        rcases List.cons_eq_cons.mp h2 with ⟨h3, h4⟩
        subst h4
        have hxb : xs = b := by
          apply eq_of_splitOnChar_single c
          rw [hxs, h3]
        rw [← h1, hx, hxb]
        rfl
      · simp only [if_neg hx] at h
        rcases List.cons_eq_cons.mp h with ⟨h1, h2⟩
        subst h2
        have hrest : xs = q ++ c :: b := ih q b (by rw [hxs])
        rw [← h1, hrest]
        rfl

theorem pyDigitsAux_chars :
    ∀ (s : Token) (acc : Nat) (b : Bool) (v : Nat), pyDigitsAux s acc b = some v →
      ∀ c ∈ s, c.isDigit = true ∨ c = '_' := by
  intro s
  induction s with
  | nil => intro _ _ _ _ c hc; simp at hc
  | cons d rest ih =>
    intro acc b v h c hc
    simp only [pyDigitsAux] at h
    by_cases hd : d.isDigit
    · rw [if_pos hd] at h
      rcases List.mem_cons.mp hc with rfl | hc
      · exact Or.inl hd
      · exact ih _ _ _ h c hc
    · rw [if_neg hd] at h
      by_cases hu : d = '_' ∧ b = true
      · rw [if_pos hu] at h
        rcases List.mem_cons.mp hc with rfl | hc
        · exact Or.inr hu.1
        · exact ih _ _ _ h c hc
      · rw [if_neg hu] at h
        exact absurd h (by simp)

theorem pyDigits_chars (s : Token) (v : Nat) (h : pyDigits s = some v) :
    ∀ c ∈ s, c.isDigit = true ∨ c = '_' :=
  pyDigitsAux_chars s 0 false v h

theorem mem_dropWhile_or (q : Char → Bool) :
    ∀ l : Token, ∀ a ∈ l, a ∈ l.dropWhile q ∨ q a = true := by
  intro l
  induction l with
  | nil => intro a ha; simp at ha
  | cons x xs ih =>
    intro a ha
    by_cases hx : q x
    · rw [List.dropWhile_cons_of_pos hx]
      rcases List.mem_cons.mp ha with rfl | ha
      · exact Or.inr hx
      · exact ih a ha
    · rw [List.dropWhile_cons_of_neg (by simpa using hx)]
      exact Or.inl ha

theorem mem_pyStrip_or (s : Token) (a : Char) (ha : a ∈ s) :
    a ∈ pyStrip s ∨ a.isWhitespace = true := by
  unfold pyStrip
  rcases mem_dropWhile_or Char.isWhitespace s a ha with h | h
  · rcases mem_dropWhile_or Char.isWhitespace _ a (List.mem_reverse.mpr h) with h2 | h2
    · exact Or.inl (List.mem_reverse.mpr h2)
    · exact Or.inr h2
  · exact Or.inr h

theorem pyInt_chars (s : Token) (v : Int) (h : pyInt s = some v) :
    ∀ a ∈ s, a.isWhitespace = true ∨ a = '+' ∨ a = '-' ∨ a.isDigit = true ∨ a = '_' := by
  intro a ha
  rcases mem_pyStrip_or s a ha with hm | hw
  · unfold pyInt at h
    rcases ht : pyStrip s with _ | ⟨c, rest⟩
    · rw [ht] at hm; simp at hm
    · rw [ht] at h hm
      simp only [List.head?_cons, List.tail_cons, Option.some.injEq] at h
      by_cases hp : c = '+'
      · rw [if_pos hp] at h
        cases hd : pyDigits rest with
        | none => rw [hd] at h; simp at h
        | some n =>
          rcases List.mem_cons.mp hm with rfl | hm
          · exact Or.inr (Or.inl hp)
          · rcases pyDigits_chars rest n hd a hm with h1 | h1
            · exact Or.inr (Or.inr (Or.inr (Or.inl h1)))
            · exact Or.inr (Or.inr (Or.inr (Or.inr h1)))
      · rw [if_neg hp] at h
        by_cases hms : c = '-'
        · rw [if_pos hms] at h
          cases hd : pyDigits rest with
          | none => rw [hd] at h; simp at h
          | some n =>
            rcases List.mem_cons.mp hm with rfl | hm
            · exact Or.inr (Or.inr (Or.inl hms))
            · rcases pyDigits_chars rest n hd a hm with h1 | h1
              · exact Or.inr (Or.inr (Or.inr (Or.inl h1)))
              · exact Or.inr (Or.inr (Or.inr (Or.inr h1)))
        · rw [if_neg hms] at h
          cases hd : pyDigits (c :: rest) with
          | none => rw [hd] at h; simp at h
          | some n =>
            rcases pyDigits_chars (c :: rest) n hd a hm with h1 | h1
            · exact Or.inr (Or.inr (Or.inr (Or.inl h1)))
            · exact Or.inr (Or.inr (Or.inr (Or.inr h1)))
  · exact Or.inl hw

theorem pyInt_no_slash (s : Token) (v : Int) (h : pyInt s = some v) : '/' ∉ s := by
  intro hs
  rcases pyInt_chars s v h '/' hs with h1 | h1 | h1 | h1 | h1 <;> exact absurd h1 (by decide)

theorem mem_of_countChar_pos (c : Char) (s : Token) (h : 0 < countChar c s) : c ∈ s := by
  by_contra hnot
  unfold countChar at h
  rw [List.filter_eq_nil_iff.mpr (fun x hx => by simp; rintro rfl; exact hnot hx)] at h
  simp at h

/-- The numeric-range branch never fires on a token containing a slash:
both halves around the unique dash would have to parse as Python ints, but a
slash survives into one of the halves and is not a legal `int` character. -/
theorem numericRange_eq_none_of_slash (s : Token) (hs : '/' ∈ s) :
    numericRange s = none := by
  unfold numericRange
  by_cases hc : ('-' ∈ s ∧ countChar '-' s = 1)
  · rw [if_pos hc]
    cases hsp : splitOnChar '-' s with
    | nil => rfl
    | cons a rest =>
      cases rest with
      | nil => rfl
      | cons b rest2 =>
        cases rest2 with
        | nil =>
          have hsab : s = a ++ '-' :: b := eq_of_splitOnChar_pair '-' s a b hsp
          cases hpa : pyInt a with
          | none => simp [hpa]
          | some x =>
            cases hpb : pyInt b with
            | none => simp [hpa, hpb]
            | some y =>
              exfalso
              rw [hsab] at hs
              rcases List.mem_append.mp hs with h | h
              · exact pyInt_no_slash a x hpa h
              · rcases List.mem_cons.mp h with h | h
                · exact absurd h (by decide)
                · exact pyInt_no_slash b y hpb h
        | cons d rest3 => rfl
  · rw [if_neg hc]

/-- Behaviour of the token classifier on a token that `ip_network` accepts:
the numeric-range branch cannot fire, `parse_ip` takes the network path, and
the emitted range is network-to-broadcast. -/
theorem classifyToken_network (s : Token) (nw : IPNet) (hs : '/' ∈ s)
    (hn : ip_network s = some nw) :
    classifyToken (some s) = .range (networkAddress nw) (broadcastAddress nw) := by
  have hne : s ≠ [] := List.ne_nil_of_mem hs
  simp only [classifyToken]
  rw [if_neg hne, numericRange_eq_none_of_slash s hs]
  unfold parse_ip
  rw [if_pos hs, hn]
  rfl

theorem networkAddress_le_broadcastAddress (nw : IPNet) :
    networkAddress nw ≤ broadcastAddress nw :=
  Nat.le_of_testBit fun i h => by
    simp only [broadcastAddress, Nat.testBit_or, h, Bool.true_or]

/-! ## The accumulation loop as a pair of filterMaps -/

theorem foldl_collectStep (ts : List (Option Token)) :
    ∀ (as : List Nat) (ns : List (Int × Int)),
      ts.foldl collectStep (as, ns) =
        (as ++ ts.filterMap tokenAddress, ns ++ ts.filterMap tokenRange) := by
  induction ts with
  | nil => intro as ns; simp
  | cons t ts ih =>
    intro as ns
    rw [List.foldl_cons]
    cases hc : classifyToken t with
    | addr v =>
      rw [show collectStep (as, ns) t = (as ++ [v], ns) by simp [collectStep, hc], ih]
      simp [tokenAddress, tokenRange, hc, List.filterMap_cons]
    | range x y =>
      rw [show collectStep (as, ns) t = (as, ns ++ [(x, y)]) by simp [collectStep, hc], ih]
      simp [tokenAddress, tokenRange, hc, List.filterMap_cons]
    | invalid =>
      rw [show collectStep (as, ns) t = (as, ns) by simp [collectStep, hc], ih]
      simp [tokenAddress, tokenRange, hc, List.filterMap_cons]

theorem collectEntities_eq (ts : List (Option Token)) :
    collectEntities ts = (ts.filterMap tokenAddress, ts.filterMap tokenRange) := by
  unfold collectEntities
  rw [foldl_collectStep]
  simp

theorem normalizeTokens_eq (ts : List (Option Token)) :
    normalizeTokens ts =
      { addresses := sortedDedup (ts.filterMap tokenAddress)
        networks := sortedDedup ((ts.filterMap tokenRange).map toLex) } := by
  unfold normalizeTokens
  rw [collectEntities_eq]

/-! ## Lemmas about `parse_line` -/

theorem foldl_parse_line (ms : List RMatch) :
    ∀ acc : List (Option Token),
      ms.foldl (fun results m => results ++ [tokenOfMatch m]) acc =
        acc ++ ms.map tokenOfMatch := by
  induction ms with
  | nil => intro acc; simp
  | cons m ms ih =>
    intro acc
    rw [List.foldl_cons, ih]
    simp

theorem parse_line_eq_map (ms : List RMatch) :
    parse_line ms = ms.map tokenOfMatch := by
  unfold parse_line
  rw [foldl_parse_line]
  simp

theorem find?_first_nonempty (g : Token) (hg : g ≠ []) :
    ∀ pre : List Token, (∀ p ∈ pre, p = ([] : Token)) →
      ∀ post : List Token,
        (pre ++ g :: post).find? (fun x => x != []) = some g := by
  intro pre
  induction pre with
  | nil =>
    intro _ post
    rw [List.nil_append, List.find?_cons_of_pos _ (by simp [hg])]
  | cons p ps ih =>
    intro hall post
    have hp : p = [] := hall p (List.mem_cons_self p ps)
    subst hp
    rw [List.cons_append, List.find?_cons_of_neg _ (by simp)]
    exact ih (fun q hq => hall q (List.mem_cons_of_mem _ hq)) post

theorem find?_all_empty :
    ∀ gs : List Token, (∀ g ∈ gs, g = ([] : Token)) →
      gs.find? (fun x => x != []) = none := by
  intro gs
  induction gs with
  | nil => intro _; rfl
  | cons g gl ih =>
    intro hall
    have hg : g = [] := hall g (List.mem_cons_self g gl)
    subst hg
    rw [List.find?_cons_of_neg _ (by simp)]
    exact ih (fun q hq => hall q (List.mem_cons_of_mem _ hq))

/-! ## Lemmas about the feeds dictionary and the orchestrator -/

theorem dictInsert_fresh (k : Token) (v : β) :
    ∀ d : List (Token × β), k ∉ d.map Prod.fst → dictInsert k v d = d ++ [(k, v)] := by
  intro d
  induction d with
  | nil => intro _; rfl
  | cons kv rest ih =>
    intro h
    obtain ⟨k', v'⟩ := kv
    simp only [List.map_cons, List.mem_cons, not_or] at h
    unfold dictInsert
    rw [if_neg (fun he => h.1 he.symm)]
    rw [ih h.2]
    rfl

theorem foldl_dictInsert_fresh :
    ∀ (l : List SourceRun) (d : List (Token × List (Option Token))),
      (l.map SourceRun.name).Nodup →
      (∀ k ∈ l.map SourceRun.name, k ∉ d.map Prod.fst) →
      l.foldl (fun d s => dictInsert (download_single_list s).1 (download_single_list s).2 d) d
        = d ++ l.map download_single_list := by
  intro l
  induction l with
  | nil => intro d _ _; simp
  | cons s rest ih =>
    intro d hnodup hdisj
    rw [List.foldl_cons]
    have hfresh : s.name ∉ d.map Prod.fst := hdisj s.name (by simp)
    have hins : dictInsert (download_single_list s).1 (download_single_list s).2 d
        = d ++ [download_single_list s] := dictInsert_fresh _ _ d hfresh
    rw [hins, ih (d ++ [download_single_list s]) (List.nodup_cons.mp hnodup).2 ?_]
    · simp
    · intro k hk
      simp only [List.map_append, List.mem_append, List.map_cons, List.map_nil, not_or]
      refine ⟨hdisj k (by simp [hk]), ?_⟩
      have hne : k ≠ s.name := by
        intro he
        exact (List.nodup_cons.mp hnodup).1 (he ▸ hk)
      simp [download_single_list, hne]

theorem download_all_feeds_eq (completed : List SourceRun)
    (hnodup : (completed.map SourceRun.name).Nodup) :
    download_all_feeds completed = completed.map download_single_list := by
  unfold download_all_feeds
  rw [foldl_dictInsert_fresh completed [] hnodup (by simp)]
  rfl

theorem dictLookup_map_value (k : Token) (f : List (Option Token) → ProcessedFeed) :
    ∀ d : List (Token × List (Option Token)),
      dictLookup k (d.map (fun kv => (kv.1, f kv.2))) = (dictLookup k d).map f := by
  intro d
  induction d with
  | nil => rfl
  | cons kv rest ih =>
    obtain ⟨k', v'⟩ := kv
    simp only [List.map_cons]
    unfold dictLookup
    by_cases he : k' = k
    · rw [if_pos he, if_pos he]
      rfl
    · rw [if_neg he, if_neg he]
      exact ih

theorem dictLookup_of_mem :
    ∀ (completed : List SourceRun) (s : SourceRun),
      s ∈ completed → (completed.map SourceRun.name).Nodup →
      dictLookup s.name (completed.map download_single_list) = some (sourceTokens s) := by
  intro completed
  induction completed with
  | nil => intro s hs _; simp at hs
  | cons c rest ih =>
    intro s hs hnodup
    rw [List.map_cons]
    show dictLookup s.name ((c.name, sourceTokens c) :: rest.map download_single_list) = _
    unfold dictLookup
    by_cases he : c.name = s.name
    · rw [if_pos he]
      rcases List.mem_cons.mp hs with rfl | hs
      · rfl
      · exfalso
        have hmem : s.name ∈ rest.map SourceRun.name := List.mem_map_of_mem _ hs
        rw [List.map_cons] at hnodup
        exact (List.nodup_cons.mp hnodup).1 (he ▸ hmem)
    · rw [if_neg he]
      rcases List.mem_cons.mp hs with rfl | hs
      · exact absurd rfl he
      · rw [List.map_cons] at hnodup
        exact ih s hs (List.nodup_cons.mp hnodup).2

theorem lex_lt_iff_netLt (p q : Lex (Int × Int)) :
    p < q ↔ netLt (ofLex p) (ofLex q) :=
  Prod.lex_def

/-! ## Claim theorems -/

/-- C3: for every token of the form "X-Y" containing exactly one dash where
both sides parse as base-10 integers, the classifier returns the range
`(X, Y)` verbatim — no reordering of the bounds and no `start ≤ end`
validation is performed. -/
theorem claim_C3 (s a b : Token) (x y : Int)
    (hcount : countChar '-' s = 1) (hsplit : splitOnChar '-' s = [a, b])
    (ha : pyInt a = some x) (hb : pyInt b = some y) :
    classifyToken (some s) = Entity.range x y := by
  have hmem : '-' ∈ s := mem_of_countChar_pos '-' s (by omega)
  have hne : s ≠ [] := List.ne_nil_of_mem hmem
  simp only [classifyToken]
  rw [if_neg hne]
  unfold numericRange
  rw [if_pos ⟨hmem, hcount⟩, hsplit]
  simp [ha, hb]

/-- C3 witness: the token "10-20" parses as the range (10, 20). -/
theorem claim_C3_witness : classifyToken (some ("10-20".data)) = Entity.range 10 20 :=
  claim_C3 "10-20".data "10".data "20".data 10 20 (by decide) (by decide) (by decide)
    (by decide)

/-- C2 counterexample: the token "200-100" produces Range(200, 100), whose
start exceeds its end, so not every Range produced by the classifier
satisfies `start ≤ end`. -/
theorem claim_C2_counterexample :
    classifyToken (some ("200-100".data)) = Entity.range 200 100 ∧
      ¬ ((200 : Int) ≤ 100) := by
  exact ⟨by decide, by decide⟩

/-- C2 amended: every Range produced from the CIDR branch of the classifier
satisfies `start ≤ end`; ranges from numeric "X-Y" tokens carry the two
bounds verbatim and may violate it. -/
theorem claim_C2_amended (s : Token) (nw : IPNet) (hs : '/' ∈ s)
    (hn : ip_network s = some nw) :
    ∃ lo hi : Int, classifyToken (some s) = Entity.range lo hi ∧ lo ≤ hi := by
  refine ⟨networkAddress nw, broadcastAddress nw, classifyToken_network s nw hs hn, ?_⟩
  exact_mod_cast networkAddress_le_broadcastAddress nw

/-- C2 amended witness: the CIDR token "172.16.0.0/12" produces an ordered
range. -/
theorem claim_C2_amended_witness :
    ∃ lo hi : Int,
      classifyToken (some ("172.16.0.0/12".data)) = Entity.range lo hi ∧ lo ≤ hi :=
  claim_C2_amended "172.16.0.0/12".data ⟨32, 2886729728, 12⟩ (by decide) (by decide)

/-- C5: for every token containing a slash that `ip_network` accepts, the
classifier returns the range from the integer value of the network address
to the integer value of the broadcast address of that CIDR block. -/
theorem claim_C5 (s : Token) (nw : IPNet) (hs : '/' ∈ s)
    (hn : ip_network s = some nw) :
    classifyToken (some s) =
      Entity.range (networkAddress nw) (broadcastAddress nw) :=
  classifyToken_network s nw hs hn

/-- C5 witness: the scoped token "fe80::1%eth0/64" (the zone suffix is split
off, as in CPython) yields the range from fe80:: to
fe80::ffff:ffff:ffff:ffff. -/
theorem claim_C5_witness :
    classifyToken (some ("fe80::1%eth0/64".data)) =
      Entity.range 338288524927261089654018896841347694592
        338288524927261089672465640915057246207 := by
  have h := claim_C5 "fe80::1%eth0/64".data
    ⟨128, 338288524927261089654018896841347694593, 64⟩ (by decide) (by decide)
  exact h.trans (by decide)

/-- C10: a CIDR token whose host bits are set is not classified Invalid:
because networks are parsed with `strict=False`, the classifier returns the
range of the enclosing network — its network and broadcast addresses — as if
the host bits were masked off. -/
theorem claim_C10 (s : Token) (nw : IPNet) (hs : '/' ∈ s)
    (hn : ip_network s = some nw) (_hhost : networkAddress nw ≠ nw.addr) :
    classifyToken (some s) ≠ Entity.invalid ∧
    classifyToken (some s) =
      Entity.range (networkAddress nw) (broadcastAddress nw) := by
  refine ⟨?_, classifyToken_network s nw hs hn⟩
  rw [classifyToken_network s nw hs hn]
  simp

/-- C10 witness: "10.0.0.1/30" has host bits set and yields the range of its
enclosing network 10.0.0.0-10.0.0.3. -/
theorem claim_C10_witness :
    classifyToken (some ("10.0.0.1/30".data)) ≠ Entity.invalid ∧
    classifyToken (some ("10.0.0.1/30".data)) = Entity.range 167772160 167772163 := by
  have h := claim_C10 "10.0.0.1/30".data ⟨32, 167772161, 30⟩ (by decide) (by decide)
    (by decide)
  exact ⟨h.1, h.2.trans (by decide)⟩

/-- C4: normalizing the token list ["10.0.0.1", "10.0.0.1", "10.0.0.0/30",
"100-200"] yields exactly addresses [167772161] and networks
[[100, 200], [167772160, 167772163]]. -/
theorem claim_C4 :
    normalizeTokens [some ("10.0.0.1".data), some ("10.0.0.1".data),
        some ("10.0.0.0/30".data), some ("100-200".data)] =
      { addresses := [167772161]
        networks := [toLex (100, 200), toLex (167772160, 167772163)] } := by
  decide

/-- C6: for every input token list, the resulting feed's `addresses` are
strictly ascending with no duplicates, its `networks` ascending in
(start, end) lexicographic order with no duplicate pairs, and any address or
(start, end) pair contributed by the input — however many times — appears
exactly once in the output. -/
theorem claim_C6 (ts : List (Option Token)) :
    (normalizeTokens ts).addresses.Sorted (· < ·) ∧
    (normalizeTokens ts).addresses.Nodup ∧
    (normalizeTokens ts).networks.Sorted (fun p q => netLt (ofLex p) (ofLex q)) ∧
    (normalizeTokens ts).networks.Nodup ∧
    (∀ v : Nat, v ∈ ts.filterMap tokenAddress →
      countOcc v (normalizeTokens ts).addresses = 1) ∧
    (∀ p : Int × Int, p ∈ ts.filterMap tokenRange →
      countOcc (toLex p) (normalizeTokens ts).networks = 1) := by
  rw [normalizeTokens_eq]
  refine ⟨sorted_sortedDedup _, nodup_sortedDedup _, ?_, nodup_sortedDedup _, ?_, ?_⟩
  · exact (sorted_sortedDedup _).imp (fun h => (lex_lt_iff_netLt _ _).mp h)
  · intro v hv
    exact countOcc_sortedDedup v _ hv
  · intro p hp
    exact countOcc_sortedDedup (toLex p) _ (List.mem_map_of_mem toLex hp)

/-- C6 witness: a list with a repeated address token and a repeated range
token produces each exactly once. -/
theorem claim_C6_witness :
    countOcc 151587081 (normalizeTokens [some ("9.9.9.9".data), some ("9.9.9.9".data),
        some ("5-8".data), some ("5-8".data)]).addresses = 1 ∧
    countOcc (toLex (5, 8)) (normalizeTokens [some ("9.9.9.9".data), some ("9.9.9.9".data),
        some ("5-8".data), some ("5-8".data)]).networks = 1 := by
  have h := claim_C6 [some ("9.9.9.9".data), some ("9.9.9.9".data),
    some ("5-8".data), some ("5-8".data)]
  exact ⟨h.2.2.2.2.1 151587081 (by decide), h.2.2.2.2.2 (5, 8) (by decide)⟩

/-- C9: the normalizer is invariant under permutation of its input token
list — it produces an identical `ProcessedFeed`, same content and same
order; in particular (being a function) re-running it on the same token
multiset yields identical output. -/
theorem claim_C9 (ts₁ ts₂ : List (Option Token)) (h : ts₁.Perm ts₂) :
    normalizeTokens ts₁ = normalizeTokens ts₂ := by
  rw [normalizeTokens_eq, normalizeTokens_eq]
  have ha : sortedDedup (ts₁.filterMap tokenAddress)
      = sortedDedup (ts₂.filterMap tokenAddress) :=
    sortedDedup_perm (h.filterMap tokenAddress)
  have hn : sortedDedup ((ts₁.filterMap tokenRange).map toLex)
      = sortedDedup ((ts₂.filterMap tokenRange).map toLex) :=
    sortedDedup_perm ((h.filterMap tokenRange).map toLex)
  rw [ha, hn]

/-- C9 witness: swapping two tokens leaves the normalized feed unchanged. -/
theorem claim_C9_witness :
    normalizeTokens [some ("8.8.8.8".data), some ("1.2.3.4".data)] =
      normalizeTokens [some ("1.2.3.4".data), some ("8.8.8.8".data)] :=
  claim_C9 _ _ (List.Perm.swap _ _ [])

/-- C7 counterexample: a findall match whose capture groups are all empty
yields Python `None` (here `none`) in the returned sequence — not a token
string — so the extractor does not always return a sequence of candidate
token strings, and there is no "first non-empty captured group" to select. -/
theorem claim_C7_counterexample :
    parse_line [RMatch.groups [[], []]] = [none] ∧
    (parse_line [RMatch.groups [[], []]]).all Option.isSome = false :=
  ⟨by decide, by decide⟩

/-- C7 amended: the extractor returns one entry per findall match (so an
empty match list — a non-matching line — yields the empty sequence without
error); a whole-string match passes through unchanged; a multi-group match
contributes its first non-empty captured group, or `none` in place of a
token when every captured group is empty (that placeholder is discarded
later by the normalizer's falsy-token check). -/
theorem claim_C7_amended (ms : List RMatch) :
    parse_line ms = ms.map tokenOfMatch ∧
    (ms = [] → parse_line ms = []) ∧
    (∀ s : Token, tokenOfMatch (RMatch.whole s) = some s) ∧
    (∀ (pre : List Token) (g : Token) (post : List Token),
      (∀ p ∈ pre, p = ([] : Token)) → g ≠ [] →
      tokenOfMatch (RMatch.groups (pre ++ g :: post)) = some g) ∧
    (∀ gs : List Token, (∀ g ∈ gs, g = ([] : Token)) →
      tokenOfMatch (RMatch.groups gs) = none) := by
  refine ⟨parse_line_eq_map ms, ?_, ?_, ?_, ?_⟩
  · rintro rfl
    rfl
  · intro s
    rfl
  · intro pre g post hpre hg
    exact find?_first_nonempty g hg pre hpre post
  · intro gs hall
    exact find?_all_empty gs hall

/-- C7 amended witness: a two-group match with an empty first group yields
the second group as token. -/
theorem claim_C7_amended_witness :
    tokenOfMatch (RMatch.groups [[], "ab".data, "cd".data]) = some ("ab".data) :=
  (claim_C7_amended []).2.2.2.1 [[]] ("ab".data) ["cd".data] (by decide) (by decide)

/-- C8: the fetcher makes at most 3 attempts for a URL; every backoff sleep
in its trace is the fixed 1 time unit; a success on attempt i stops the loop
with each preceding failed attempt followed by exactly one sleep; and when
all three attempts fail the trace is attempt-sleep-attempt-sleep-attempt (no
sleep after the last attempt) and the call returns the empty sequence — a
value, never an escalated error (the model is a total function). -/
theorem claim_C8 (att : Nat → Option (List Token)) :
    countAttempts (download_source att).1 ≤ 3 ∧
    (∀ d : Nat, FetchEvent.sleep d ∈ (download_source att).1 → d = 1) ∧
    (∀ l, att 1 = some l → download_source att = ([.attempt 1 true], l)) ∧
    (∀ l, att 1 = none → att 2 = some l →
      download_source att = ([.attempt 1 false, .sleep 1, .attempt 2 true], l)) ∧
    (∀ l, att 1 = none → att 2 = none → att 3 = some l →
      download_source att =
        ([.attempt 1 false, .sleep 1, .attempt 2 false, .sleep 1, .attempt 3 true],
          l)) ∧
    ((∀ i, att i = none) →
      download_source att =
        ([.attempt 1 false, .sleep 1, .attempt 2 false, .sleep 1, .attempt 3 false],
          [])) := by
  have hr : List.range' 1 3 = [1, 2, 3] := rfl
  refine ⟨?_, ?_, ?_, ?_, ?_, ?_⟩
  · rcases h1 : att 1 with _ | l1 <;> rcases h2 : att 2 with _ | l2 <;>
      rcases h3 : att 3 with _ | l3 <;>
      simp [download_source, hr, download_source_loop, h1, h2, h3, countAttempts]
  · intro d hd
    rcases h1 : att 1 with _ | l1 <;> rcases h2 : att 2 with _ | l2 <;>
      rcases h3 : att 3 with _ | l3 <;>
      simp [download_source, hr, download_source_loop, h1, h2, h3] at hd <;>
      tauto
  · intro l h1
    simp [download_source, hr, download_source_loop, h1]
  · intro l h1 h2
    simp [download_source, hr, download_source_loop, h1, h2]
  · intro l h1 h2 h3
    simp [download_source, hr, download_source_loop, h1, h2, h3]
  · intro hall
    have h1 := hall 1
    have h2 := hall 2
    have h3 := hall 3
    simp [download_source, hr, download_source_loop, h1, h2, h3]

/-- C8 witness: with every attempt failing, the fetcher performs exactly the
attempt-sleep-attempt-sleep-attempt trace and returns the empty sequence. -/
theorem claim_C8_witness :
    countAttempts (download_source (fun _ => none)).1 ≤ 3 ∧
    download_source (fun _ => none) =
      ([.attempt 1 false, .sleep 1, .attempt 2 false, .sleep 1, .attempt 3 false],
        []) := by
  have h := claim_C8 (fun _ => none)
  exact ⟨h.1, h.2.2.2.2.2 (fun i => rfl)⟩

/-- C1: for every list of sources with pairwise-distinct names and every
completion order of their fetches, the snapshot's feeds mapping has exactly
the input source names as keys (one entry each), and a source whose fetch
failed entirely (no lines downloaded) is present with the empty feed
`{addresses := [], networks := []}`, never absent. -/
theorem claim_C1 (sources completed : List SourceRun) (t : Nat)
    (hperm : completed.Perm sources)
    (hnodup : (sources.map SourceRun.name).Nodup) :
    ((buildSnapshot t (download_all_feeds completed)).feeds.map Prod.fst).Perm
        (sources.map SourceRun.name) ∧
    ∀ s ∈ sources, s.lineMatches = [] →
      dictLookup s.name (buildSnapshot t (download_all_feeds completed)).feeds =
        some { addresses := [], networks := [] } := by
  have hnodupC : (completed.map SourceRun.name).Nodup :=
    (hperm.map SourceRun.name).nodup_iff.mpr hnodup
  have heq : download_all_feeds completed = completed.map download_single_list :=
    download_all_feeds_eq completed hnodupC
  have hfeeds : (buildSnapshot t (download_all_feeds completed)).feeds
      = (completed.map download_single_list).map
          (fun kv => (kv.1, normalizeTokens kv.2)) := by
    show process_feeds (download_all_feeds completed) = _
    rw [heq]
    rfl
  constructor
  · rw [hfeeds]
    have hkeys : ((completed.map download_single_list).map
        (fun kv => (kv.1, normalizeTokens kv.2))).map Prod.fst
        = completed.map SourceRun.name := by
      simp [List.map_map, download_single_list, Function.comp]
    rw [hkeys]
    exact hperm.map SourceRun.name
  · intro s hs hfail
    have hsC : s ∈ completed := hperm.mem_iff.mpr hs
    rw [hfeeds, dictLookup_map_value, dictLookup_of_mem completed s hsC hnodupC]
    have hts : sourceTokens s = [] := by
      unfold sourceTokens
      rw [hfail]
      rfl
    rw [hts]
    rfl

/-- C1 witness: a single source whose fetch downloaded nothing still appears
in the snapshot, keyed by its name, with empty collections. -/
theorem claim_C1_witness :
    (((buildSnapshot 7 (download_all_feeds [⟨"src-a".data, []⟩])).feeds.map
        Prod.fst).Perm ([(⟨"src-a".data, []⟩ : SourceRun)].map SourceRun.name)) ∧
    dictLookup ("src-a".data)
        (buildSnapshot 7 (download_all_feeds [⟨"src-a".data, []⟩])).feeds =
      some { addresses := [], networks := [] } := by
  have h := claim_C1 [⟨"src-a".data, []⟩] [⟨"src-a".data, []⟩] 7 (List.Perm.refl _)
    (by decide)
  exact ⟨h.1, h.2 ⟨"src-a".data, []⟩ (by decide) rfl⟩
